import Mathlib

/-!
Verification development for the sharepoint-upload-action repository
(src/main.py and src/sharepoint_upload.py), a one-way local-to-SharePoint
directory synchronizer.

Modelling conventions (shallow embedding):
* Relative paths are lists of path segments (`List String`); the Python code
  joins segments with `/` after `replace(os.path.sep, '/')`, so segment lists
  are in bijection with the normalized path strings the code compares.
* Network effects are modelled by an environment assigning HTTP status codes
  (plain `Nat`) to each request, and by a tree describing what the remote
  store answers to each children-listing request.
* The requests a pass issues are recorded as a list of `MainOp` values, in
  program order.  `exit(1)` in the Python code is modelled by an `exited`
  flag on the pass result (a non-zero process exit).
-/

namespace SPSync

/-- Chunk size used by `upload_file_to_sharepoint` in src/main.py:
`chunk_size = 4 * 1024 * 1024`. -/
def mainChunkSize : Nat := 4 * 1024 * 1024

/-- Chunk size used by `upload_file_to_sharepoint` in src/sharepoint_upload.py:
`chunk_size = 1 * 1024 * 1024`. -/
def standaloneChunkSize : Nat := 1 * 1024 * 1024

/-- The accepted-status test of the chunk loop: `200 <= status <= 204`. -/
def accepted (s : Nat) : Bool := 200 ≤ s && s ≤ 204

/-- The chunked upload loop shared by both Python files:
starting at byte `start` of a file of `fileSize` bytes, repeatedly read
`min chunkSize (fileSize - start)` bytes (what `f.read(chunk_size)` returns at
that offset), stop on an empty read, submit the chunk as byte range
`[start, start+len-1]`, and continue only while the response status satisfies
`accepted`; on a rejected chunk the function returns (no retry).
`stat i` is the HTTP status the remote store answers to the `i`-th submitted
chunk.  The returned list holds the `(start, length)` pairs of the byte
ranges actually submitted, in order. -/
def uploadChunks (stat : Nat → Nat) (chunkSize fileSize start idx : Nat) :
    List (Nat × Nat) :=
  if h : 0 < min chunkSize (fileSize - start) then
    (start, min chunkSize (fileSize - start)) ::
      (if accepted (stat idx) then
        uploadChunks stat chunkSize fileSize
          (start + min chunkSize (fileSize - start)) (idx + 1)
      else [])
  else []
termination_by fileSize - start
decreasing_by
  have hle : min chunkSize (fileSize - start) ≤ fileSize - start :=
    Nat.min_le_right _ _
  omega

/-! ### Remote store model (get_remote_files_recursive, src/main.py)

Each folder's children-listing request either succeeds with a list of items
or fails with an HTTP status code.  An item is a file (name, id), a folder
(name, together with the response its own children-listing request will get),
or something that is neither (skipped by the Python loop, which tests
`'file' in item` / `'folder' in item`). -/

mutual
inductive RItem : Type where
  | rfile : String → String → RItem
  | rfolder : String → RResp → RItem
  | rother : String → RItem
inductive RResp : Type where
  | ok : RForest → RResp
  | err : Nat → RResp
inductive RForest : Type where
  | rnil : RForest
  | rcons : RItem → RForest → RForest
end

/-! The recursion of `get_remote_files_recursive`: each invocation requests
the children of its folder, and catches `HTTPError` of that request itself or
nothing (a nested invocation catches its own).  Status 404 yields an empty
mapping from that invocation; any other HTTP error runs `exit(1)`, modelled
by `Except.error ()`, which aborts the entire traversal. -/

mutual
def listFolder (itemPath : List String) : RResp →
    Except Unit (List (List String × String))
  | RResp.ok forest => listForest itemPath forest
  | RResp.err status =>
      if status = 404 then Except.ok [] else Except.error ()

def listForest (itemPath : List String) : RForest →
    Except Unit (List (List String × String))
  | RForest.rnil => Except.ok []
  | RForest.rcons item rest =>
      match listItem itemPath item with
      | Except.error e => Except.error e
      | Except.ok m =>
          match listForest itemPath rest with
          | Except.error e => Except.error e
          | Except.ok ms => Except.ok (m ++ ms)

def listItem (itemPath : List String) : RItem →
    Except Unit (List (List String × String))
  | RItem.rfile name itemId => Except.ok [(itemPath ++ [name], itemId)]
  | RItem.rfolder name resp => listFolder (itemPath ++ [name]) resp
  | RItem.rother _ => Except.ok []
end

/-- Top-level call of `get_remote_files_recursive` on the base folder:
`base` is the response to the children-listing request for the base folder
itself. -/
def getRemoteFilesRecursive (base : RResp) :
    Except Unit (List (List String × String)) :=
  listFolder [] base

/-! ### Local tree model and the os.walk scan of `__main__` in src/main.py -/

mutual
inductive FsTree : Type where
  | node : FsForest → List String → FsTree
inductive FsForest : Type where
  | fnil : FsForest
  | fcons : String → FsTree → FsForest → FsForest
end

/-! `walkFiles ign rel t` is the set (as a list) of relative paths the scan
of `__main__` collects from subtree `t` mounted at relative path `rel`:
a directory named `.git` is removed from `dirs`, a directory whose relative
path matches the ignore predicate is pruned before descending, and a file is
kept only when its relative path does not match.  An absent `.gitignore` is
the constant-false predicate. -/

mutual
def walkFiles (ign : List String → Bool) (rel : List String) :
    FsTree → List (List String)
  | FsTree.node dirs files =>
      files.filterMap
        (fun f => if ign (rel ++ [f]) then none else some (rel ++ [f]))
        ++ walkForest ign rel dirs

def walkForest (ign : List String → Bool) (rel : List String) :
    FsForest → List (List String)
  | FsForest.fnil => []
  | FsForest.fcons dname t rest =>
      (if dname == ".git" || ign (rel ++ [dname]) then []
       else walkFiles ign (rel ++ [dname]) t)
        ++ walkForest ign rel rest
end

/-! `allFiles t` enumerates the relative paths of every regular file in the
tree, ignoring all filtering — the raw content of the local tree, used to
state which files the scan keeps or drops. -/

mutual
def allFiles : FsTree → List (List String)
  | FsTree.node dirs files => files.map (fun f => [f]) ++ allFilesForest dirs

def allFilesForest : FsForest → List (List String)
  | FsForest.fnil => []
  | FsForest.fcons dname t rest =>
      (allFiles t).map (fun s => dname :: s) ++ allFilesForest rest
end

/-- The relative paths of the directories a relative path passes through:
all proper nonempty prefixes of the path except the path itself (the last
segment is the file name). -/
def pathAncestors : List String → List (List String)
  | [] => []
  | [_] => []
  | a :: rest => [a] :: (pathAncestors rest).map (fun s => a :: s)

/-! ### Orchestrator model (`__main__` of src/main.py) -/

/-- The network requests the pass can issue: the top-level children-listing
GET of the deletion step, a DELETE of an item id, a createUploadSession POST
for a destination path, and a chunk PUT.  Each request that carries an
`Authorization` header records the token it was built from (`none` models a
`None` token, i.e. the header `Bearer None`). -/
inductive MainOp : Type where
  | listRequest : Option String → MainOp
  | deleteRequest : Option String → String → MainOp
  | sessionRequest : Option String → List String → MainOp
  | chunkRequest : List String → Nat → Nat → MainOp
  deriving DecidableEq

def MainOp.isDelete : MainOp → Bool
  | MainOp.deleteRequest _ _ => true
  | _ => false

def MainOp.isSession : MainOp → Bool
  | MainOp.sessionRequest _ _ => true
  | _ => false

def MainOp.isChunk : MainOp → Bool
  | MainOp.chunkRequest _ _ _ => true
  | _ => false

/-- The remote store's behaviour towards one pass: the response to the
base-folder listing (with the whole remote tree inside it), the status each
DELETE gets (by item id), the status each createUploadSession POST gets (by
destination path), the status each chunk PUT gets (by destination path and
chunk ordinal), and each local file's byte size (by local relative path). -/
structure GraphEnv : Type where
  base : RResp
  deleteStatus : String → Nat
  sessionStatus : List String → Nat
  chunkStatus : List String → Nat → Nat
  fileSize : List String → Nat

/-- The deletion set of `__main__`: `files_to_delete = remote_files_set -
local_files`, i.e. the remote keys that are not local paths. -/
def filesToDelete (remoteKeys localFiles : List (List String)) :
    List (List String) :=
  remoteKeys.filter (fun p => decide (p ∉ localFiles))

/-- Dictionary lookup `remote_files_map[file_path]`: the binding of the last
insertion wins, as in a Python dict built by `update`. -/
def lookupId (remoteMap : List (List String × String)) (p : List String) :
    String :=
  match remoteMap.reverse.find? (fun e => e.1 == p) with
  | some e => e.2
  | none => ""

/-- The deletion loop: one DELETE request per path of the deletion set,
resolved to its item id.  The response status is not consulted for control
flow (the Python code only prints it), so no status argument appears. -/
def deletionOps (token : Option String) (remoteMap : List (List String × String))
    (toDelete : List (List String)) : List MainOp :=
  toDelete.map (fun p => MainOp.deleteRequest token (lookupId remoteMap p))

/-- `upload_file_to_sharepoint` of src/main.py, as the requests it issues for
destination `bf ++ p` (base folder plus relative path): the session-open
POST, then — only when the open answered 200 — the chunk PUTs of the loop.
A non-200 open makes the function return with no further request. -/
def uploadFileOps (token : Option String) (env : GraphEnv) (bf p : List String) :
    List MainOp :=
  MainOp.sessionRequest token (bf ++ p) ::
    (if env.sessionStatus (bf ++ p) = 200 then
      (uploadChunks (env.chunkStatus (bf ++ p)) mainChunkSize (env.fileSize p) 0 0).map
        (fun r => MainOp.chunkRequest (bf ++ p) r.1 r.2)
    else [])

/-- The upload loop of `__main__`: every local file is handed to
`upload_file_to_sharepoint`, one after the other, unconditionally. -/
def uploadAllOps (token : Option String) (env : GraphEnv) (bf : List String) :
    List (List String) → List MainOp
  | [] => []
  | p :: rest => uploadFileOps token env bf p ++ uploadAllOps token env bf rest

/-- Outcome of one pass: the requests issued in order, and whether the
process terminated through `exit(1)` (a non-zero exit status). -/
structure PassResult : Type where
  ops : List MainOp
  exited : Bool
  deriving DecidableEq

/-- The `__main__` flow of src/main.py after token acquisition: scan the
local tree; when deletion-sync is enabled, issue the top-level listing
request, abort the process on a fatal listing error, otherwise delete the
deletion set and upload every local file; when disabled, upload directly.
The token is used as returned by `get_access_token` — the code never checks
it for `None`. -/
def mainPass (ign : List String → Bool) (tree : FsTree) (token : Option String)
    (syncDeletions : Bool) (env : GraphEnv) (bf : List String) : PassResult :=
  let localFiles := walkFiles ign [] tree
  if syncDeletions then
    match getRemoteFilesRecursive env.base with
    | Except.error _ => PassResult.mk [MainOp.listRequest token] true
    | Except.ok remoteMap =>
        PassResult.mk
          (MainOp.listRequest token ::
            (deletionOps token remoteMap
              (filesToDelete (remoteMap.map Prod.fst) localFiles)
              ++ uploadAllOps token env bf localFiles))
          false
  else PassResult.mk (uploadAllOps token env bf localFiles) false

/-! ### Standalone uploader (src/sharepoint_upload.py) -/

/-- Environment of the standalone uploader's per-file operation: whether the
local file exists, the session-open status, whether the open response body
carries an `uploadUrl`, the chunk statuses, and the file size. -/
structure StandaloneEnv : Type where
  fileExists : List String → Bool
  sessionStatus : List String → Nat
  hasUploadUrl : List String → Bool
  chunkStatus : List String → Nat → Nat
  fileSize : List String → Nat

/-- `upload_file_to_sharepoint` of src/sharepoint_upload.py: return at once
(no request) when the local file does not exist; otherwise open the session,
return on a non-200 open or a missing `uploadUrl`, else run the chunk loop
with 1 MiB chunks. -/
def standaloneUploadFileOps (token : String) (env : StandaloneEnv)
    (bf p : List String) : List MainOp :=
  if env.fileExists p then
    MainOp.sessionRequest (some token) (bf ++ p) ::
      (if env.sessionStatus (bf ++ p) = 200 then
        if env.hasUploadUrl (bf ++ p) then
          (uploadChunks (env.chunkStatus (bf ++ p)) standaloneChunkSize
            (env.fileSize p) 0 0).map
            (fun r => MainOp.chunkRequest (bf ++ p) r.1 r.2)
        else []
      else [])
  else []

/-- The walk of the standalone `__main__`: each surviving file is handed to
`upload_file_to_sharepoint` in turn, unconditionally. -/
def standaloneUploadAll (token : String) (env : StandaloneEnv) (bf : List String) :
    List (List String) → List MainOp
  | [] => []
  | p :: rest =>
      standaloneUploadFileOps token env bf p ++ standaloneUploadAll token env bf rest

/-! ### Helper lemmas about the chunk loop -/

/-- Unfolding equation of `uploadChunks` with a plain conditional. -/
theorem uploadChunks_eq (stat : Nat → Nat) (cs n s i : Nat) :
    uploadChunks stat cs n s i =
      if 0 < min cs (n - s) then
        (s, min cs (n - s)) ::
          (if accepted (stat i) then
            uploadChunks stat cs n (s + min cs (n - s)) (i + 1)
          else [])
      else [] := by
  rw [uploadChunks]
  rfl

/-- Every submitted range starts at or after the initial cursor, has positive
length, and ends within the file. -/
theorem uploadChunks_bounds (stat : Nat → Nat) (cs n : Nat) :
    ∀ s i, ∀ r ∈ uploadChunks stat cs n s i,
      s ≤ r.1 ∧ 0 < r.2 ∧ r.1 + r.2 ≤ n := by
  have key : ∀ k s i, n - s ≤ k → ∀ r ∈ uploadChunks stat cs n s i,
      s ≤ r.1 ∧ 0 < r.2 ∧ r.1 + r.2 ≤ n := by
    intro k
    induction k with
    | zero =>
        intro s i hk r hr
        have h0 : n - s = 0 := by omega
        rw [uploadChunks_eq, h0] at hr
        simp at hr
    | succ k ih =>
        intro s i hk r hr
        rw [uploadChunks_eq] at hr
        by_cases hpos : 0 < min cs (n - s)
        · rw [if_pos hpos] at hr
          have hmin : min cs (n - s) ≤ n - s := Nat.min_le_right _ _
          rcases List.mem_cons.mp hr with h1 | h2
          · subst h1
            exact ⟨le_refl _, hpos, by omega⟩
          · by_cases hacc : accepted (stat i)
            · rw [if_pos hacc] at h2
              obtain ⟨ha, hb, hc⟩ :=
                ih (s + min cs (n - s)) (i + 1) (by omega) r h2
              exact ⟨by omega, hb, hc⟩
            · rw [if_neg hacc] at h2
              simp at h2
        · rw [if_neg hpos] at hr
          simp at hr
  intro s i r hr
  exact key (n - s) s i le_rfl r hr

/-- The submitted ranges are pairwise disjoint and in order, and their start
indices are strictly increasing: no byte range is ever re-sent. -/
theorem uploadChunks_pairwise (stat : Nat → Nat) (cs n : Nat) :
    ∀ s i, (uploadChunks stat cs n s i).Pairwise
      (fun a b => a.1 + a.2 ≤ b.1 ∧ a.1 < b.1) := by
  have key : ∀ k s i, n - s ≤ k → (uploadChunks stat cs n s i).Pairwise
      (fun a b => a.1 + a.2 ≤ b.1 ∧ a.1 < b.1) := by
    intro k
    induction k with
    | zero =>
        intro s i hk
        have h0 : n - s = 0 := by omega
        rw [uploadChunks_eq, h0]
        simp
    | succ k ih =>
        intro s i hk
        rw [uploadChunks_eq]
        by_cases hpos : 0 < min cs (n - s)
        · rw [if_pos hpos]
          have hmin : min cs (n - s) ≤ n - s := Nat.min_le_right _ _
          by_cases hacc : accepted (stat i)
          · rw [if_pos hacc]
            refine List.pairwise_cons.mpr ⟨?_, ih _ _ (by omega)⟩
            intro b hb
            obtain ⟨hb1, _, _⟩ := uploadChunks_bounds stat cs n _ _ b hb
            exact ⟨by omega, by omega⟩
          · rw [if_neg hacc]
            simp
        · rw [if_neg hpos]
          simp
  intro s i
  exact key (n - s) s i le_rfl

/-- The head of the submitted-range list, when it exists, starts exactly at
the cursor. -/
theorem uploadChunks_head_start (stat : Nat → Nat) (cs n s i : Nat) :
    ∀ b ∈ (uploadChunks stat cs n s i).head?, b.1 = s := by
  rw [uploadChunks_eq]
  by_cases hpos : 0 < min cs (n - s)
  · rw [if_pos hpos]
    intro b hb
    simp at hb
    subst hb
    rfl
  · rw [if_neg hpos]
    intro b hb
    simp at hb

/-- Consecutive submitted ranges are contiguous: each range starts exactly
where the previous one ended. -/
theorem uploadChunks_chain (stat : Nat → Nat) (cs n : Nat) :
    ∀ s i, List.Chain' (fun a b : Nat × Nat => a.1 + a.2 = b.1)
      (uploadChunks stat cs n s i) := by
  have key : ∀ k s i, n - s ≤ k →
      List.Chain' (fun a b : Nat × Nat => a.1 + a.2 = b.1)
        (uploadChunks stat cs n s i) := by
    intro k
    induction k with
    | zero =>
        intro s i hk
        have h0 : n - s = 0 := by omega
        rw [uploadChunks_eq, h0]
        simp
    | succ k ih =>
        intro s i hk
        rw [uploadChunks_eq]
        by_cases hpos : 0 < min cs (n - s)
        · rw [if_pos hpos]
          have hmin : min cs (n - s) ≤ n - s := Nat.min_le_right _ _
          by_cases hacc : accepted (stat i)
          · rw [if_pos hacc]
            refine List.chain'_cons'.mpr ⟨?_, ih _ _ (by omega)⟩
            intro b hb
            have := uploadChunks_head_start stat cs n (s + min cs (n - s)) (i + 1) b hb
            omega
          · rw [if_neg hacc]
            simp
        · rw [if_neg hpos]
          simp
  intro s i
  exact key (n - s) s i le_rfl

/-- When every chunk is accepted, the submitted ranges cover every byte
position from the cursor to the end of the file. -/
theorem uploadChunks_covers (stat : Nat → Nat) (cs n : Nat) (hcs : 0 < cs)
    (hacc : ∀ i, accepted (stat i) = true) :
    ∀ s i b, s ≤ b → b < n →
      ∃ r ∈ uploadChunks stat cs n s i, r.1 ≤ b ∧ b < r.1 + r.2 := by
  have key : ∀ k s i b, n - s ≤ k → s ≤ b → b < n →
      ∃ r ∈ uploadChunks stat cs n s i, r.1 ≤ b ∧ b < r.1 + r.2 := by
    intro k
    induction k with
    | zero =>
        intro s i b hk hsb hbn
        omega
    | succ k ih =>
        intro s i b hk hsb hbn
        have hpos : 0 < min cs (n - s) := lt_min hcs (by omega)
        have hmin : min cs (n - s) ≤ n - s := Nat.min_le_right _ _
        rw [uploadChunks_eq, if_pos hpos, if_pos (hacc i)]
        by_cases hb : b < s + min cs (n - s)
        · exact ⟨(s, min cs (n - s)), List.mem_cons_self _ _, hsb, hb⟩
        · obtain ⟨r, hr, hr1, hr2⟩ :=
            ih (s + min cs (n - s)) (i + 1) b (by omega) (by omega) hbn
          exact ⟨r, List.mem_cons_of_mem _ hr, hr1, hr2⟩
  intro s i b hsb hbn
  exact key (n - s) s i b le_rfl hsb hbn

/-! ### Claim theorems (first batch) -/

/-- C2: across a successful transfer (every chunk accepted), the submitted
byte ranges are contiguous, non-overlapping and strictly increasing, every
range lies within the file (the cursor never exceeds the total length), and
their union is exactly the interval from 0 to the file size. -/
theorem upload_byte_ranges_correct (stat : Nat → Nat) (cs n : Nat)
    (hcs : 0 < cs) (hacc : ∀ i, accepted (stat i) = true) :
    List.Chain' (fun a b : Nat × Nat => a.1 + a.2 = b.1)
      (uploadChunks stat cs n 0 0)
    ∧ (uploadChunks stat cs n 0 0).Pairwise
        (fun a b => a.1 + a.2 ≤ b.1 ∧ a.1 < b.1)
    ∧ (∀ r ∈ uploadChunks stat cs n 0 0, 0 < r.2 ∧ r.1 + r.2 ≤ n)
    ∧ (∀ b, b < n ↔ ∃ r ∈ uploadChunks stat cs n 0 0,
        r.1 ≤ b ∧ b < r.1 + r.2) := by
  refine ⟨uploadChunks_chain stat cs n 0 0, uploadChunks_pairwise stat cs n 0 0,
    ?_, ?_⟩
  · intro r hr
    obtain ⟨_, hb, hc⟩ := uploadChunks_bounds stat cs n 0 0 r hr
    exact ⟨hb, hc⟩
  · intro b
    constructor
    · intro hb
      exact uploadChunks_covers stat cs n hcs hacc 0 0 b (Nat.zero_le _) hb
    · rintro ⟨r, hr, _, hr2⟩
      obtain ⟨_, _, hc⟩ := uploadChunks_bounds stat cs n 0 0 r hr
      omega

/-- C2 witness: both hypotheses hold at chunk size 4 with a store that
answers 200 to every chunk, and the submitted ranges for a 10-byte file are
contiguous. -/
theorem upload_byte_ranges_correct_witness :
    0 < 4 ∧ accepted 200 = true
    ∧ List.Chain' (fun a b : Nat × Nat => a.1 + a.2 = b.1)
        (uploadChunks (fun _ => 200) 4 10 0 0) :=
  ⟨by decide, by decide,
    (upload_byte_ranges_correct (fun _ => 200) 4 10 (by decide)
      (fun _ => rfl)).1⟩

/-- C1: the deletion set is exactly the remote keys minus the local set —
it never contains a path present locally and never omits a remote key absent
locally — and an empty deletion set produces no deletion requests. -/
theorem deletion_set_exact (remoteKeys localFiles : List (List String))
    (token : Option String) (remoteMap : List (List String × String)) :
    (∀ p, p ∈ filesToDelete remoteKeys localFiles ↔
        p ∈ remoteKeys ∧ p ∉ localFiles)
    ∧ (filesToDelete remoteKeys localFiles = [] →
        deletionOps token remoteMap (filesToDelete remoteKeys localFiles) = []) := by
  constructor
  · intro p
    simp [filesToDelete, List.mem_filter]
  · intro h
    rw [h]
    rfl

/-- C1 witness: with remote = local = the single path `a`, the deletion set
is empty and no deletion request is issued. -/
theorem deletion_set_exact_witness :
    deletionOps none [] (filesToDelete [["a"]] [["a"]]) = [] :=
  (deletion_set_exact [["a"]] [["a"]] none []).2 (by decide)

/-- C3 counterexample: a not-found (404) response for the nested subfolder
`sub` during recursion is treated benignly — the subtree contributes an
empty mapping and traversal continues with the sibling file — contradicting
the claim that only the top-level call enjoys this treatment. -/
theorem nested_notfound_benign_counterexample :
    getRemoteFilesRecursive
      (RResp.ok (RForest.rcons (RItem.rfolder "sub" (RResp.err 404))
        (RForest.rcons (RItem.rfile "a" "id1") RForest.rnil)))
      = Except.ok [(["a"], "id1")] := rfl

/-- C3 amended: a not-found response is treated as an empty mapping (not an
error) at every level of the recursion — for the base folder and equally for
any nested subfolder, whose empty subtree leaves the rest of the traversal
unchanged. -/
theorem notfound_benign_every_level (p : List String) (dname : String)
    (rest : RForest) :
    listFolder p (RResp.err 404) = Except.ok []
    ∧ listForest p (RForest.rcons (RItem.rfolder dname (RResp.err 404)) rest)
        = listForest p rest := by
  constructor
  · rfl
  · cases h : listForest p rest with
    | ok ms => simp [listForest, listItem, listFolder, h]
    | error e => simp [listForest, listItem, listFolder, h]

/-- C4: a non-404 listing failure anywhere in the recursion makes the whole
listing fatal, and a fatal listing terminates the pass with a non-zero exit
after issuing only the listing request — no deletion and no upload request is
ever issued, so nothing acts on partially discovered results. -/
theorem fatal_listing_aborts (ign : List String → Bool) (tree : FsTree)
    (token : Option String) (env : GraphEnv) (bf : List String)
    (h : getRemoteFilesRecursive env.base = Except.error ()) :
    (∀ s, s ≠ 404 → ∀ p, listFolder p (RResp.err s) = Except.error ())
    ∧ (mainPass ign tree token true env bf).exited = true
    ∧ (mainPass ign tree token true env bf).ops = [MainOp.listRequest token] := by
  refine ⟨?_, ?_, ?_⟩
  · intro s hs p
    simp [listFolder, hs]
  · simp [mainPass, h]
  · simp [mainPass, h]

/-- Environment whose base-folder listing fails with HTTP 500. -/
def fatalEnv : GraphEnv :=
  GraphEnv.mk (RResp.err 500) (fun _ => 204) (fun _ => 200) (fun _ _ => 200)
    (fun _ => 0)

/-- C4 witness: at the concrete 500-failing environment the pass exits
non-zero. -/
theorem fatal_listing_aborts_witness :
    getRemoteFilesRecursive fatalEnv.base = Except.error ()
    ∧ (mainPass (fun _ => false) (FsTree.node FsForest.fnil []) none true
        fatalEnv []).exited = true :=
  ⟨rfl, (fatal_listing_aborts (fun _ => false) (FsTree.node FsForest.fnil [])
    none fatalEnv [] rfl).2.1⟩

/-- Environment with an empty remote tree and session opens refused. -/
def noCheckEnv : GraphEnv :=
  GraphEnv.mk (RResp.ok RForest.rnil) (fun _ => 204) (fun _ => 500)
    (fun _ _ => 200) (fun _ => 0)

/-- C5: evaluated at the failing input (token acquisition returned `None`,
deletion-sync enabled, one local file), `__main__` of src/main.py does not
abort: it issues the remote-listing request and an upload-session request
with the absent token and finishes normally — it never checks the token. -/
theorem absent_token_requests_still_issued :
    (mainPass (fun _ => false) (FsTree.node FsForest.fnil ["a"]) none true
      noCheckEnv []).ops
      = [MainOp.listRequest none, MainOp.sessionRequest none ["a"]]
    ∧ (mainPass (fun _ => false) (FsTree.node FsForest.fnil ["a"]) none true
        noCheckEnv []).exited = false := by
  constructor <;> rfl

/-- The upload loop never consults the DELETE statuses. -/
theorem uploadAllOps_dsIrrel (token : Option String) (base : RResp)
    (ds ds' : String → Nat) (ss : List String → Nat)
    (chs : List String → Nat → Nat) (fs : List String → Nat)
    (bf : List String) (l : List (List String)) :
    uploadAllOps token (GraphEnv.mk base ds ss chs fs) bf l
      = uploadAllOps token (GraphEnv.mk base ds' ss chs fs) bf l := by
  induction l with
  | nil => rfl
  | cons p rest ih =>
      rw [uploadAllOps, uploadAllOps, ih,
        show uploadFileOps token (GraphEnv.mk base ds ss chs fs) bf p
          = uploadFileOps token (GraphEnv.mk base ds' ss chs fs) bf p from rfl]

/-- The whole pass never consults the DELETE statuses: an individual
deletion failure changes nothing about the rest of the pass. -/
theorem mainPass_dsIrrel (ign : List String → Bool) (tree : FsTree)
    (token : Option String) (sd : Bool) (bf : List String) (base : RResp)
    (ds ds' : String → Nat) (ss : List String → Nat)
    (chs : List String → Nat → Nat) (fs : List String → Nat) :
    mainPass ign tree token sd (GraphEnv.mk base ds ss chs fs) bf
      = mainPass ign tree token sd (GraphEnv.mk base ds' ss chs fs) bf := by
  cases sd with
  | false =>
      show PassResult.mk (uploadAllOps token (GraphEnv.mk base ds ss chs fs) bf
            (walkFiles ign [] tree)) false
          = PassResult.mk (uploadAllOps token (GraphEnv.mk base ds' ss chs fs) bf
            (walkFiles ign [] tree)) false
      rw [uploadAllOps_dsIrrel]
  | true =>
      cases h : getRemoteFilesRecursive base with
      | error e => simp [mainPass, h]
      | ok rm =>
          simp [mainPass, h]
          rw [uploadAllOps_dsIrrel]

/-- C7: per-item failures are isolated: (1) deletion responses never affect
the pass at all; (2) a failed session open leaves only that open request for
the file; (3) the upload loop processes every file regardless of what the
ones before it did; (4) a rejected chunk ends that file's submissions with
exactly the rejected chunk, and (5) no byte range is ever submitted twice
(start indices strictly increase), so a rejected chunk is never retried. -/
theorem per_item_failures_isolated (token : Option String) (base : RResp)
    (ds ds' : String → Nat) (ss : List String → Nat)
    (chs : List String → Nat → Nat) (fs : List String → Nat)
    (ign : List String → Bool) (tree : FsTree) (sd : Bool) (bf : List String) :
    mainPass ign tree token sd (GraphEnv.mk base ds ss chs fs) bf
      = mainPass ign tree token sd (GraphEnv.mk base ds' ss chs fs) bf
    ∧ (∀ env : GraphEnv, ∀ p, env.sessionStatus (bf ++ p) ≠ 200 →
        uploadFileOps token env bf p = [MainOp.sessionRequest token (bf ++ p)])
    ∧ (∀ env : GraphEnv, ∀ l₁ p l₂,
        uploadAllOps token env bf (l₁ ++ p :: l₂)
          = uploadAllOps token env bf l₁ ++ uploadFileOps token env bf p
              ++ uploadAllOps token env bf l₂)
    ∧ (∀ stat cs n s i, accepted (stat i) = false → 0 < min cs (n - s) →
        uploadChunks stat cs n s i = [(s, min cs (n - s))])
    ∧ (∀ stat cs n s i,
        ((uploadChunks stat cs n s i).map Prod.fst).Pairwise (· < ·)) := by
  refine ⟨mainPass_dsIrrel ign tree token sd bf base ds ds' ss chs fs, ?_, ?_, ?_, ?_⟩
  · intro env p hs
    simp [uploadFileOps, hs]
  · intro env l₁ p l₂
    induction l₁ with
    | nil => simp [uploadAllOps]
    | cons q qs ih => simp [uploadAllOps, ih]
  · intro stat cs n s i hacc hpos
    rw [uploadChunks_eq, if_pos hpos, if_neg (by simp [hacc])]
  · intro stat cs n s i
    rw [List.pairwise_map]
    exact (uploadChunks_pairwise stat cs n s i).imp (fun h => h.2)

/-- Environment with session opens refused (status 500). -/
def recovEnv : GraphEnv :=
  GraphEnv.mk (RResp.ok RForest.rnil) (fun _ => 204) (fun _ => 500)
    (fun _ _ => 200) (fun _ => 5)

/-- C7 witness: with the session open refused at status 500 for file `a`,
only the open request is issued for it. -/
theorem per_item_failures_isolated_witness :
    uploadFileOps none recovEnv [] ["a"] = [MainOp.sessionRequest none ["a"]] := by
  have h := per_item_failures_isolated none (RResp.ok RForest.rnil)
    (fun _ => 204) (fun _ => 204) (fun _ => 500) (fun _ _ => 200) (fun _ => 5)
    (fun _ => false) (FsTree.node FsForest.fnil []) true []
  exact h.2.1 recovEnv ["a"] (by decide)

/-- C8: for a zero-byte file the transfer loop submits zero chunk requests
(hence no completion signal reaches the store), so the only request issued
for such a file is the session open. -/
theorem empty_file_no_chunk_requests (stat : Nat → Nat) (cs : Nat)
    (token : Option String) (env : GraphEnv) (bf p : List String)
    (h : env.fileSize p = 0) :
    uploadChunks stat cs 0 0 0 = []
    ∧ uploadFileOps token env bf p = [MainOp.sessionRequest token (bf ++ p)] := by
  have hz : ∀ st : Nat → Nat, ∀ c : Nat, uploadChunks st c 0 0 0 = [] := by
    intro st c
    rw [uploadChunks_eq]
    simp
  refine ⟨hz stat cs, ?_⟩
  simp [uploadFileOps, h, hz]

/-- Environment in which every local file has size zero. -/
def emptyFileEnv : GraphEnv :=
  GraphEnv.mk (RResp.ok RForest.rnil) (fun _ => 204) (fun _ => 200)
    (fun _ _ => 200) (fun _ => 0)

/-- C8 witness: the zero-byte file `e` produces only the session-open
request. -/
theorem empty_file_no_chunk_requests_witness :
    uploadFileOps none emptyFileEnv [] ["e"] = [MainOp.sessionRequest none ["e"]] :=
  (empty_file_no_chunk_requests (fun _ => 200) 4 none emptyFileEnv [] ["e"] rfl).2

/-- C10: in the standalone uploader, a missing local file makes the per-file
operation return without issuing any request, and the surrounding walk
continues with the remaining files exactly as if the file were absent. -/
theorem missing_local_file_no_requests (token : String) (env : StandaloneEnv)
    (bf p : List String) (h : env.fileExists p = false) :
    standaloneUploadFileOps token env bf p = []
    ∧ (∀ l₁ l₂, standaloneUploadAll token env bf (l₁ ++ p :: l₂)
        = standaloneUploadAll token env bf l₁
            ++ standaloneUploadAll token env bf l₂) := by
  have h0 : standaloneUploadFileOps token env bf p = [] := by
    simp [standaloneUploadFileOps, h]
  refine ⟨h0, ?_⟩
  intro l₁ l₂
  induction l₁ with
  | nil => simp [standaloneUploadAll, h0]
  | cons q qs ih => simp [standaloneUploadAll, ih]

/-- Standalone environment in which no local file exists. -/
def missingEnv : StandaloneEnv :=
  StandaloneEnv.mk (fun _ => false) (fun _ => 200) (fun _ => true)
    (fun _ _ => 200) (fun _ => 3)

/-- C10 witness: the missing file `m` produces no request at all. -/
theorem missing_local_file_no_requests_witness :
    standaloneUploadFileOps "t" missingEnv [] ["m"] = [] :=
  (missing_local_file_no_requests "t" missingEnv [] ["m"] rfl).1

/-! ### Helper lemmas about the local scan -/

mutual

/-- Every path produced by `allFiles` is nonempty. -/
theorem allFiles_ne_nil : ∀ (t : FsTree), ∀ s ∈ allFiles t, s ≠ []
  | FsTree.node dirs files => by
      intro s hs
      rw [allFiles] at hs
      rcases List.mem_append.mp hs with h | h
      · obtain ⟨f, _, rfl⟩ := List.mem_map.mp h
        simp
      · exact allFilesForest_ne_nil dirs s h

/-- Every path produced by `allFilesForest` is nonempty. -/
theorem allFilesForest_ne_nil : ∀ (f : FsForest), ∀ s ∈ allFilesForest f, s ≠ []
  | FsForest.fnil => by
      intro s hs
      simp [allFilesForest] at hs
  | FsForest.fcons dname t rest => by
      intro s hs
      rw [allFilesForest] at hs
      rcases List.mem_append.mp hs with h | h
      · obtain ⟨b, _, rfl⟩ := List.mem_map.mp h
        simp
      · exact allFilesForest_ne_nil rest s h

end

/-- Unfolding of `pathAncestors` on a list of at least two segments. -/
theorem pathAncestors_cons_cons (x y : String) (rest : List String) :
    pathAncestors (x :: y :: rest)
      = [x] :: (pathAncestors (y :: rest)).map (fun a => x :: a) := rfl

/-- Every ancestor prefix of a path is nonempty. -/
theorem pathAncestors_ne_nil : ∀ (p : List String), ∀ a ∈ pathAncestors p, a ≠ []
  | [] => by simp [pathAncestors]
  | [x] => by simp [pathAncestors]
  | x :: y :: rest => by
      intro a ha
      rw [pathAncestors_cons_cons] at ha
      rcases List.mem_cons.mp ha with h | hmem
      · subst h
        simp
      · obtain ⟨b, _, rfl⟩ := List.mem_map.mp hmem
        simp

/-- Unfolding of `pathAncestors` on a cons with nonempty tail. -/
theorem pathAncestors_cons (x : String) (s : List String) (hs : s ≠ []) :
    pathAncestors (x :: s) = [x] :: (pathAncestors s).map (fun a => x :: a) := by
  cases s with
  | nil => exact absurd rfl hs
  | cons y ys => rw [pathAncestors_cons_cons]

/-- Prepending to a nonempty list keeps its last element. -/
theorem getLast?_cons_ne_nil (x : String) (a : List String) (ha : a ≠ []) :
    (x :: a).getLast? = a.getLast? := by
  cases a with
  | nil => exact absurd rfl ha
  | cons y ys => rw [List.getLast?_cons_cons]

/-- A segment of the directory part of a path is the last element of one of
its ancestor prefixes. -/
theorem dropLast_mem_ancestor : ∀ (p : List String) (x : String),
    x ∈ p.dropLast → ∃ a ∈ pathAncestors p, a.getLast? = some x
  | [], x, h => by simp at h
  | [y], x, h => by simp at h
  | y :: z :: rest, x, h => by
      rw [List.dropLast_cons₂] at h
      rcases List.mem_cons.mp h with rfl | hmem
      · refine ⟨[x], ?_, rfl⟩
        rw [pathAncestors_cons_cons]
        exact List.mem_cons_self _ _
      · obtain ⟨a, ha, hlast⟩ := dropLast_mem_ancestor (z :: rest) x hmem
        have hane := pathAncestors_ne_nil (z :: rest) a ha
        refine ⟨y :: a, ?_, ?_⟩
        · rw [pathAncestors_cons_cons]
          exact List.mem_cons_of_mem _ (List.mem_map.mpr ⟨a, ha, rfl⟩)
        · rw [getLast?_cons_ne_nil y a hane]
          exact hlast

/-- Membership in the per-directory file filter of the scan. -/
theorem mem_scanFiles (ign : List String → Bool) (rel : List String)
    (files : List String) (p : List String) :
    p ∈ files.filterMap
        (fun f => if ign (rel ++ [f]) then none else some (rel ++ [f]))
      ↔ ∃ f, f ∈ files ∧ p = rel ++ [f] ∧ ign p = false := by
  rw [List.mem_filterMap]
  constructor
  · rintro ⟨f, hf, hsome⟩
    by_cases hig : ign (rel ++ [f]) = true
    · rw [if_pos hig] at hsome
      exact Option.noConfusion hsome
    · rw [if_neg hig] at hsome
      have hp := Option.some.inj hsome
      subst hp
      exact ⟨f, hf, rfl, by simpa using hig⟩
  · rintro ⟨f, hf, rfl, hig⟩
    exact ⟨f, hf, by rw [if_neg (by simp [hig])]⟩

/-- Splitting the ancestor condition of a path `dname :: s` into the checks
on the directory `dname` itself and the checks inside it. -/
theorem ancestorCond_cons (ign : List String → Bool) (rel : List String)
    (dname : String) (s : List String) (hs : s ≠ []) :
    (∀ a ∈ pathAncestors (dname :: s),
        a.getLast? ≠ some ".git" ∧ ign (rel ++ a) = false)
    ↔ (dname ≠ ".git" ∧ ign (rel ++ [dname]) = false ∧
        ∀ a ∈ pathAncestors s,
          a.getLast? ≠ some ".git" ∧ ign ((rel ++ [dname]) ++ a) = false) := by
  rw [pathAncestors_cons dname s hs]
  constructor
  · intro h
    have h1 := h [dname] (List.mem_cons_self _ _)
    refine ⟨fun hd => h1.1 (by rw [hd]; rfl), h1.2, fun a ha => ?_⟩
    have h2 := h (dname :: a)
      (List.mem_cons_of_mem _ (List.mem_map.mpr ⟨a, ha, rfl⟩))
    have hne := pathAncestors_ne_nil s a ha
    constructor
    · intro hla
      exact h2.1 (by rw [getLast?_cons_ne_nil dname a hne, hla])
    · have hap : rel ++ dname :: a = (rel ++ [dname]) ++ a := by simp
      rw [← hap]
      exact h2.2
  · rintro ⟨hd, hig, h⟩ a ha
    rcases List.mem_cons.mp ha with rfl | hmem
    · refine ⟨?_, hig⟩
      intro hla
      have hx : ([dname] : List String).getLast? = some dname := rfl
      rw [hx] at hla
      exact hd (Option.some.inj hla)
    · obtain ⟨b, hb, rfl⟩ := List.mem_map.mp hmem
      have hbne := pathAncestors_ne_nil s b hb
      have hb2 := h b hb
      refine ⟨?_, ?_⟩
      · rw [getLast?_cons_ne_nil dname b hbne]
        exact hb2.1
      · have hap : rel ++ dname :: b = (rel ++ [dname]) ++ b := by simp
        rw [hap]
        exact hb2.2

mutual

/-- Characterization of the scan on a subtree mounted at `rel`: a path is
collected iff it is a file of the subtree whose full path does not match the
ignore predicate and all of whose ancestor directories are neither named
`.git` nor matched by the predicate. -/
theorem mem_walkFiles_iff : ∀ (ign : List String → Bool) (rel : List String)
    (t : FsTree) (p : List String),
    p ∈ walkFiles ign rel t ↔
      ∃ s, p = rel ++ s ∧ s ∈ allFiles t ∧ ign (rel ++ s) = false ∧
        ∀ a ∈ pathAncestors s,
          a.getLast? ≠ some ".git" ∧ ign (rel ++ a) = false
  | ign, rel, FsTree.node dirs files, p => by
      rw [walkFiles, allFiles]
      constructor
      · intro hp
        rcases List.mem_append.mp hp with hfile | hforest
        · obtain ⟨f, hf, rfl, hig⟩ := (mem_scanFiles ign rel files p).mp hfile
          refine ⟨[f], rfl,
            List.mem_append.mpr (Or.inl (List.mem_map.mpr ⟨f, hf, rfl⟩)),
            hig, ?_⟩
          intro a ha
          simp [pathAncestors] at ha
        · obtain ⟨s, hps, hs, hig, hanc⟩ :=
            (mem_walkForest_iff ign rel dirs p).mp hforest
          exact ⟨s, hps, List.mem_append.mpr (Or.inr hs), hig, hanc⟩
      · rintro ⟨s, rfl, hs, hig, hanc⟩
        rcases List.mem_append.mp hs with hmap | hforest
        · obtain ⟨f, hf, rfl⟩ := List.mem_map.mp hmap
          exact List.mem_append.mpr (Or.inl
            ((mem_scanFiles ign rel files _).mpr ⟨f, hf, rfl, hig⟩))
        · exact List.mem_append.mpr (Or.inr
            ((mem_walkForest_iff ign rel dirs _).mpr ⟨s, rfl, hforest, hig, hanc⟩))

/-- Forest version of `mem_walkFiles_iff`. -/
theorem mem_walkForest_iff : ∀ (ign : List String → Bool) (rel : List String)
    (f : FsForest) (p : List String),
    p ∈ walkForest ign rel f ↔
      ∃ s, p = rel ++ s ∧ s ∈ allFilesForest f ∧ ign (rel ++ s) = false ∧
        ∀ a ∈ pathAncestors s,
          a.getLast? ≠ some ".git" ∧ ign (rel ++ a) = false
  | ign, rel, FsForest.fnil, p => by
      simp [walkForest, allFilesForest]
  | ign, rel, FsForest.fcons dname t rest, p => by
      rw [walkForest, allFilesForest]
      constructor
      · intro hp
        rcases List.mem_append.mp hp with hsub | hrest
        · by_cases hg : (dname == ".git" || ign (rel ++ [dname])) = true
          · rw [if_pos hg] at hsub
            simp at hsub
          · rw [if_neg hg] at hsub
            obtain ⟨s', hps, hs', hig', hanc'⟩ :=
              (mem_walkFiles_iff ign (rel ++ [dname]) t p).mp hsub
            have hg' : dname ≠ ".git" ∧ ign (rel ++ [dname]) = false := by
              constructor
              · intro hd
                exact hg (by simp [hd])
              · by_cases hb : ign (rel ++ [dname]) = true
                · exact absurd (by simp [hb]) hg
                · simpa using hb
            have hap : rel ++ dname :: s' = (rel ++ [dname]) ++ s' := by simp
            refine ⟨dname :: s', by rw [hps, hap],
              List.mem_append.mpr (Or.inl (List.mem_map.mpr ⟨s', hs', rfl⟩)),
              by rw [hap]; exact hig', ?_⟩
            have hs'ne := allFiles_ne_nil t s' hs'
            exact (ancestorCond_cons ign rel dname s' hs'ne).mpr
              ⟨hg'.1, hg'.2, hanc'⟩
        · obtain ⟨s, hps, hs, hig, hanc⟩ :=
            (mem_walkForest_iff ign rel rest p).mp hrest
          exact ⟨s, hps, List.mem_append.mpr (Or.inr hs), hig, hanc⟩
      · rintro ⟨s, rfl, hs, hig, hanc⟩
        rcases List.mem_append.mp hs with hmap | hforest
        · obtain ⟨s', hs', rfl⟩ := List.mem_map.mp hmap
          have hs'ne := allFiles_ne_nil t s' hs'
          obtain ⟨hd, higd, hanc'⟩ :=
            (ancestorCond_cons ign rel dname s' hs'ne).mp hanc
          refine List.mem_append.mpr (Or.inl ?_)
          rw [if_neg (show ¬((dname == ".git" || ign (rel ++ [dname])) = true)
            from by simp [hd, higd])]
          have hap : rel ++ dname :: s' = (rel ++ [dname]) ++ s' := by simp
          refine (mem_walkFiles_iff ign (rel ++ [dname]) t _).mpr
            ⟨s', hap, hs', ?_, hanc'⟩
          rw [← hap]
          exact hig
        · exact List.mem_append.mpr (Or.inr
            ((mem_walkForest_iff ign rel rest _).mpr ⟨s, rfl, hforest, hig, hanc⟩))

end

/-! ### Claim theorems about the local scan -/

/-- The null ignore object used when no `.gitignore` exists: matches
nothing. -/
def noRules : List String → Bool := fun _ => false

/-- A local tree whose only file lives inside a `.git` directory. -/
def gitTree : FsTree :=
  FsTree.node
    (FsForest.fcons ".git" (FsTree.node FsForest.fnil ["config"]) FsForest.fnil)
    []

/-- C6 counterexample: the file `.git/config` is a regular file of the tree,
matches no ignore rule, and its only ancestor directory `.git` matches no
rule either, yet it does not appear in the scan result — the unconditional
`.git` exclusion falsifies the claim as stated. -/
theorem unmatched_file_dropped_counterexample :
    [".git", "config"] ∈ allFiles gitTree
    ∧ noRules [".git", "config"] = false
    ∧ pathAncestors [".git", "config"] = [[".git"]]
    ∧ noRules [".git"] = false
    ∧ [".git", "config"] ∉ walkFiles noRules [] gitTree := by
  refine ⟨?_, rfl, rfl, rfl, ?_⟩
  · decide
  · decide

/-- C6 amended: a file appears in the local path set iff it is a file of the
tree, its relative path matches no ignore rule, and every ancestor directory
is neither named `.git` nor matches a rule; in particular a file matching a
rule or nested under a matching directory never appears, and a non-matching
file under no matching directory and under no `.git` directory always
does. -/
theorem local_scan_characterization (ign : List String → Bool) (t : FsTree)
    (p : List String) :
    p ∈ walkFiles ign [] t ↔
      p ∈ allFiles t ∧ ign p = false ∧
        ∀ a ∈ pathAncestors p,
          a.getLast? ≠ some ".git" ∧ ign a = false := by
  rw [mem_walkFiles_iff ign [] t p]
  constructor
  · rintro ⟨s, rfl, hs, hig, hanc⟩
    rw [List.nil_append] at hig
    refine ⟨hs, hig, fun a ha => ?_⟩
    have h := hanc a ha
    rwa [List.nil_append] at h
  · rintro ⟨hs, hig, hanc⟩
    refine ⟨p, by rw [List.nil_append], hs, by rwa [List.nil_append], ?_⟩
    intro a ha
    rw [List.nil_append]
    exact hanc a ha

/-- The deletion loop issues only DELETE requests. -/
theorem deletionOps_mem (token : Option String)
    (rm : List (List String × String)) (td : List (List String)) (op : MainOp)
    (h : op ∈ deletionOps token rm td) : op.isDelete = true := by
  simp only [deletionOps] at h
  obtain ⟨p, _, rfl⟩ := List.mem_map.mp h
  rfl

/-- Every session or chunk request of the upload loop addresses the
destination `bf ++ q` of one of the files `q` handed to it. -/
theorem uploadAllOps_mem (token : Option String) (env : GraphEnv)
    (bf : List String) :
    ∀ (l : List (List String)) (op : MainOp), op ∈ uploadAllOps token env bf l →
      ∃ q ∈ l, op = MainOp.sessionRequest token (bf ++ q)
        ∨ ∃ a b, op = MainOp.chunkRequest (bf ++ q) a b
  | [], op, h => by simp [uploadAllOps] at h
  | q :: rest, op, h => by
      rw [uploadAllOps] at h
      rcases List.mem_append.mp h with h1 | h2
      · refine ⟨q, List.mem_cons_self _ _, ?_⟩
        simp only [uploadFileOps] at h1
        rcases List.mem_cons.mp h1 with rfl | hmem
        · exact Or.inl rfl
        · by_cases hs : env.sessionStatus (bf ++ q) = 200
          · rw [if_pos hs] at hmem
            obtain ⟨r, _, rfl⟩ := List.mem_map.mp hmem
            exact Or.inr ⟨r.1, r.2, rfl⟩
          · rw [if_neg hs] at hmem
            simp at hmem
      · obtain ⟨q', hq', hop⟩ := uploadAllOps_mem token env bf rest op h2
        exact ⟨q', List.mem_cons_of_mem _ hq', hop⟩

/-- Every session or chunk request issued by the pass addresses the
destination of a file of the local path set. -/
theorem mainPass_upload_sources (ign : List String → Bool) (t : FsTree)
    (token : Option String) (sd : Bool) (env : GraphEnv) (bf : List String)
    (op : MainOp) (hmem : op ∈ (mainPass ign t token sd env bf).ops)
    (hkind : op.isSession = true ∨ op.isChunk = true) :
    ∃ q ∈ walkFiles ign [] t,
      op = MainOp.sessionRequest token (bf ++ q)
        ∨ ∃ a b, op = MainOp.chunkRequest (bf ++ q) a b := by
  cases sd with
  | false =>
      exact uploadAllOps_mem token env bf (walkFiles ign [] t) op hmem
  | true =>
      cases hls : getRemoteFilesRecursive env.base with
      | error e =>
          rw [show (mainPass ign t token true env bf).ops
              = [MainOp.listRequest token] from by simp [mainPass, hls]] at hmem
          rcases List.mem_singleton.mp hmem with rfl
          rcases hkind with hk | hk <;> exact Bool.noConfusion hk
      | ok rm =>
          rw [show (mainPass ign t token true env bf).ops
              = MainOp.listRequest token ::
                  (deletionOps token rm
                    (filesToDelete (rm.map Prod.fst) (walkFiles ign [] t))
                    ++ uploadAllOps token env bf (walkFiles ign [] t))
            from by simp [mainPass, hls]] at hmem
          rcases List.mem_cons.mp hmem with rfl | hmem2
          · rcases hkind with hk | hk <;> exact Bool.noConfusion hk
          · rcases List.mem_append.mp hmem2 with hdel | hup
            · have hd := deletionOps_mem token rm _ op hdel
              rcases hkind with hk | hk <;>
                · cases op <;> simp_all [MainOp.isDelete, MainOp.isSession,
                    MainOp.isChunk]
            · exact uploadAllOps_mem token env bf (walkFiles ign [] t) op hup

/-- C9: a file whose relative path passes through a directory named `.git`
(at any depth) never appears in the local path set, and the pass never
issues a session-open or chunk request for its destination — it is never
uploaded. -/
theorem git_path_never_synced (ign : List String → Bool) (t : FsTree)
    (p : List String) (h : ".git" ∈ p.dropLast) :
    p ∉ walkFiles ign [] t
    ∧ ∀ (token : Option String) (env : GraphEnv) (sd : Bool)
        (bf : List String) (a b : Nat),
        MainOp.sessionRequest token (bf ++ p) ∉ (mainPass ign t token sd env bf).ops
        ∧ MainOp.chunkRequest (bf ++ p) a b ∉ (mainPass ign t token sd env bf).ops := by
  obtain ⟨anc, hanc, hlast⟩ := dropLast_mem_ancestor p ".git" h
  have hnotwalk : p ∉ walkFiles ign [] t := by
    intro hw
    obtain ⟨s, hps, hs, hig, hcond⟩ := (mem_walkFiles_iff ign [] t p).mp hw
    rw [List.nil_append] at hps
    subst hps
    exact (hcond anc hanc).1 hlast
  refine ⟨hnotwalk, ?_⟩
  intro token env sd bf a b
  constructor
  · intro hmem
    obtain ⟨q, hq, hop⟩ :=
      mainPass_upload_sources ign t token sd env bf _ hmem (Or.inl rfl)
    rcases hop with h1 | ⟨x, y, h1⟩
    · obtain ⟨-, hbp⟩ := MainOp.sessionRequest.inj h1
      obtain rfl := List.append_cancel_left hbp
      exact hnotwalk hq
    · exact MainOp.noConfusion h1
  · intro hmem
    obtain ⟨q, hq, hop⟩ :=
      mainPass_upload_sources ign t token sd env bf _ hmem (Or.inr rfl)
    rcases hop with h1 | ⟨x, y, h1⟩
    · exact MainOp.noConfusion h1
    · obtain ⟨hbp, -, -⟩ := MainOp.chunkRequest.inj h1
      obtain rfl := List.append_cancel_left hbp
      exact hnotwalk hq

/-- A local tree with a top-level file and a file inside `.git`. -/
def gitTree9 : FsTree :=
  FsTree.node
    (FsForest.fcons ".git" (FsTree.node FsForest.fnil ["hooks"]) FsForest.fnil)
    ["top"]

/-- C9 witness: the path `.git/hooks` passes through `.git` and is absent
from the scan of the concrete tree. -/
theorem git_path_never_synced_witness :
    ".git" ∈ ([".git", "hooks"] : List String).dropLast
    ∧ [".git", "hooks"] ∉ walkFiles noRules [] gitTree9 :=
  ⟨by decide,
    (git_path_never_synced noRules gitTree9 [".git", "hooks"] (by decide)).1⟩

end SPSync
